import Mathlib

/-!
Verification of the `replace_response` Caddy handler module.

The handler (src/handler.go) applies an ordered list of search/replace rules
to HTTP response bodies, either buffered (collect whole body, transform once,
fix Content-Length) or streaming (each write is transformed incrementally and
forwarded; Content-Length is deleted before headers are finalized).

The transform engine itself (the `replace`/`transform` stream pipeline) is an
external library of the program; its stages are modelled here from the spec:
each literal-pattern stage scans its pending buffer plus newly arrived bytes,
emits everything that is decided, and retains only the minimal suffix that
could still be a prefix of an in-progress match; on close the pending bytes
are flushed unmodified. Stages compose as a pipeline: stage i's output is
stage i+1's input.
-/

namespace ReplaceResponse

variable {α : Type} [DecidableEq α]

/-- Modelled from the spec: one step of a literal-pattern stage (spec 4.2),
fuel-indexed for structural termination. Given the bytes available (pending
buffer already prepended), it returns `(emitted, retained)`: occurrences of
`pat` are replaced by `rep`; the retained part is the suffix that is still a
proper prefix of `pat` (an in-progress match). The engine that buffers and
chains these stages is not under src/ (it is the external transform pipeline);
this definition follows the spec's description of a stage. -/
def processLitF (pat rep : List α) : Nat → List α → List α × List α
  | _, [] => ([], [])
  | 0, a :: rest => ([], a :: rest)
  | n + 1, a :: rest =>
    if pat ≠ [] ∧ pat <+: (a :: rest) then
      let r := processLitF pat rep n ((a :: rest).drop pat.length)
      (rep ++ r.1, r.2)
    else if (a :: rest) <+: pat then
      ([], a :: rest)
    else
      let r := processLitF pat rep n rest
      (a :: r.1, r.2)

/-- A literal stage step with exactly enough fuel. -/
def processLit (pat rep s : List α) : List α × List α :=
  processLitF pat rep s.length s

theorem processLitF_nil (pat rep : List α) (n : Nat) :
    processLitF pat rep n [] = ([], []) := by
  cases n <;> rfl

/-- Fuel irrelevance: any fuel at least the length of the input gives the
same result. -/
theorem processLitF_congr (pat rep : List α) :
    ∀ (n : Nat) (s : List α) (m : Nat), s.length ≤ n → s.length ≤ m →
      processLitF pat rep n s = processLitF pat rep m s := by
  intro n
  induction n with
  | zero =>
    intro s m hn _
    have hs : s = [] := List.eq_nil_of_length_eq_zero (Nat.le_zero.mp hn)
    subst hs
    rw [processLitF_nil, processLitF_nil]
  | succ n ih =>
    intro s m hn hm
    cases s with
    | nil => rw [processLitF_nil, processLitF_nil]
    | cons a rest =>
      cases m with
      | zero => simp at hm
      | succ m' =>
        simp only [processLitF]
        by_cases h1 : pat ≠ [] ∧ pat <+: (a :: rest)
        · rw [if_pos h1, if_pos h1]
          have hplen : 1 ≤ pat.length := by
            cases hp : pat with
            | nil => exact absurd hp h1.1
            | cons b l => simp
          have hd : ((a :: rest).drop pat.length).length ≤ n := by
            simp only [List.length_drop]
            simp at hn ⊢
            omega
          have hd' : ((a :: rest).drop pat.length).length ≤ m' := by
            simp only [List.length_drop]
            simp at hm ⊢
            omega
          rw [ih _ m' hd hd']
        · rw [if_neg h1, if_neg h1]
          by_cases h2 : (a :: rest) <+: pat
          · rw [if_pos h2, if_pos h2]
          · rw [if_neg h2, if_neg h2]
            have hr : rest.length ≤ n := by simp at hn; omega
            have hr' : rest.length ≤ m' := by simp at hm; omega
            rw [ih rest m' hr hr']

theorem processLit_nil (pat rep : List α) : processLit pat rep [] = ([], []) :=
  rfl

/-- Unfolding: a full match at the front is replaced. -/
theorem processLit_match (pat rep : List α) (a : α) (rest : List α)
    (h1 : pat ≠ []) (h2 : pat <+: (a :: rest)) :
    processLit pat rep (a :: rest) =
      (rep ++ (processLit pat rep ((a :: rest).drop pat.length)).1,
        (processLit pat rep ((a :: rest).drop pat.length)).2) := by
  have hplen : 1 ≤ pat.length := by
    cases hp : pat with
    | nil => exact absurd hp h1
    | cons b l => simp
  show processLitF pat rep ((a :: rest).length) (a :: rest) = _
  have hlen : (a :: rest).length = rest.length + 1 := by simp
  rw [hlen]
  simp only [processLitF]
  rw [if_pos ⟨h1, h2⟩]
  have hd : ((a :: rest).drop pat.length).length ≤ rest.length := by
    simp only [List.length_drop]
    simp
    omega
  rw [processLitF_congr pat rep rest.length ((a :: rest).drop pat.length)
    ((a :: rest).drop pat.length).length hd (Nat.le_refl _)]
  rfl

/-- Unfolding: input that is still a proper prefix of the pattern is wholly
retained as pending. -/
theorem processLit_pend (pat rep : List α) (a : α) (rest : List α)
    (h1 : ¬(pat ≠ [] ∧ pat <+: (a :: rest))) (h2 : (a :: rest) <+: pat) :
    processLit pat rep (a :: rest) = ([], a :: rest) := by
  show processLitF pat rep ((a :: rest).length) (a :: rest) = _
  have hlen : (a :: rest).length = rest.length + 1 := by simp
  rw [hlen]
  simp only [processLitF]
  rw [if_neg h1, if_pos h2]

/-- Unfolding: otherwise the head byte is decided and emitted. -/
theorem processLit_emit (pat rep : List α) (a : α) (rest : List α)
    (h1 : ¬(pat ≠ [] ∧ pat <+: (a :: rest))) (h2 : ¬((a :: rest) <+: pat)) :
    processLit pat rep (a :: rest) =
      (a :: (processLit pat rep rest).1, (processLit pat rep rest).2) := by
  show processLitF pat rep ((a :: rest).length) (a :: rest) = _
  have hlen : (a :: rest).length = rest.length + 1 := by simp
  rw [hlen]
  simp only [processLitF]
  rw [if_neg h1, if_neg h2]
  rfl

/-- Modelled from the spec: the one-shot buffered transform of a single
literal rule (spec 4.1): replace each leftmost non-overlapping occurrence of
`pat` by `rep`, fuel-indexed. -/
def replaceAllF (pat rep : List α) : Nat → List α → List α
  | _, [] => []
  | 0, a :: rest => a :: rest
  | n + 1, a :: rest =>
    if pat ≠ [] ∧ pat <+: (a :: rest) then
      rep ++ replaceAllF pat rep n ((a :: rest).drop pat.length)
    else
      a :: replaceAllF pat rep n rest

/-- The buffered single-rule transform with exactly enough fuel. -/
def replaceAll (pat rep s : List α) : List α :=
  replaceAllF pat rep s.length s

theorem replaceAllF_nil (pat rep : List α) (n : Nat) :
    replaceAllF pat rep n [] = [] := by
  cases n <;> rfl

theorem replaceAllF_congr (pat rep : List α) :
    ∀ (n : Nat) (s : List α) (m : Nat), s.length ≤ n → s.length ≤ m →
      replaceAllF pat rep n s = replaceAllF pat rep m s := by
  intro n
  induction n with
  | zero =>
    intro s m hn _
    have hs : s = [] := List.eq_nil_of_length_eq_zero (Nat.le_zero.mp hn)
    subst hs
    rw [replaceAllF_nil, replaceAllF_nil]
  | succ n ih =>
    intro s m hn hm
    cases s with
    | nil => rw [replaceAllF_nil, replaceAllF_nil]
    | cons a rest =>
      cases m with
      | zero => simp at hm
      | succ m' =>
        simp only [replaceAllF]
        by_cases h1 : pat ≠ [] ∧ pat <+: (a :: rest)
        · rw [if_pos h1, if_pos h1]
          have hplen : 1 ≤ pat.length := by
            cases hp : pat with
            | nil => exact absurd hp h1.1
            | cons b l => simp
          have hd : ((a :: rest).drop pat.length).length ≤ n := by
            simp only [List.length_drop]
            simp at hn ⊢
            omega
          have hd' : ((a :: rest).drop pat.length).length ≤ m' := by
            simp only [List.length_drop]
            simp at hm ⊢
            omega
          rw [ih _ m' hd hd']
        · rw [if_neg h1, if_neg h1]
          have hr : rest.length ≤ n := by simp at hn; omega
          have hr' : rest.length ≤ m' := by simp at hm; omega
          rw [ih rest m' hr hr']

theorem replaceAll_nil (pat rep : List α) : replaceAll pat rep [] = [] :=
  rfl

theorem replaceAll_match (pat rep : List α) (a : α) (rest : List α)
    (h1 : pat ≠ []) (h2 : pat <+: (a :: rest)) :
    replaceAll pat rep (a :: rest) =
      rep ++ replaceAll pat rep ((a :: rest).drop pat.length) := by
  have hplen : 1 ≤ pat.length := by
    cases hp : pat with
    | nil => exact absurd hp h1
    | cons b l => simp
  show replaceAllF pat rep ((a :: rest).length) (a :: rest) = _
  have hlen : (a :: rest).length = rest.length + 1 := by simp
  rw [hlen]
  simp only [replaceAllF]
  rw [if_pos ⟨h1, h2⟩]
  have hd : ((a :: rest).drop pat.length).length ≤ rest.length := by
    simp only [List.length_drop]
    simp
    omega
  rw [replaceAllF_congr pat rep rest.length ((a :: rest).drop pat.length)
    ((a :: rest).drop pat.length).length hd (Nat.le_refl _)]
  rfl

theorem replaceAll_emit (pat rep : List α) (a : α) (rest : List α)
    (h1 : ¬(pat ≠ [] ∧ pat <+: (a :: rest))) :
    replaceAll pat rep (a :: rest) = a :: replaceAll pat rep rest := by
  show replaceAllF pat rep ((a :: rest).length) (a :: rest) = _
  have hlen : (a :: rest).length = rest.length + 1 := by simp
  rw [hlen]
  simp only [replaceAllF]
  rw [if_neg h1]
  rfl

/-- Inputs shorter than the pattern pass through the buffered transform
unchanged. -/
theorem replaceAll_short (pat rep : List α) :
    ∀ s : List α, s.length < pat.length → replaceAll pat rep s = s := by
  intro s
  induction s with
  | nil => intro _; rfl
  | cons a rest ih =>
    intro hlen
    have h1 : ¬(pat ≠ [] ∧ pat <+: (a :: rest)) := by
      rintro ⟨_, hp⟩
      have := hp.length_le
      omega
    rw [replaceAll_emit pat rep a rest h1]
    have : rest.length < pat.length := by simp at hlen; omega
    rw [ih this]

/-- The buffered transform is the emitted output followed by the retained
pending bytes of a single stage step. -/
theorem replaceAll_eq_processLit (pat rep : List α) :
    ∀ (k : Nat) (s : List α), s.length ≤ k →
      replaceAll pat rep s = (processLit pat rep s).1 ++ (processLit pat rep s).2 := by
  intro k
  induction k with
  | zero =>
    intro s hs
    have : s = [] := List.eq_nil_of_length_eq_zero (Nat.le_zero.mp hs)
    subst this
    rfl
  | succ k ih =>
    intro s hs
    cases s with
    | nil => rfl
    | cons a rest =>
      by_cases h1 : pat ≠ [] ∧ pat <+: (a :: rest)
      · have hplen : 1 ≤ pat.length := by
          cases hp : pat with
          | nil => exact absurd hp h1.1
          | cons b l => simp
        rw [replaceAll_match pat rep a rest h1.1 h1.2,
          processLit_match pat rep a rest h1.1 h1.2]
        have hd : ((a :: rest).drop pat.length).length ≤ k := by
          simp only [List.length_drop]
          simp at hs ⊢
          omega
        rw [ih _ hd]
        simp
      · by_cases h2 : (a :: rest) <+: pat
        · rw [processLit_pend pat rep a rest h1 h2]
          have hlt : (a :: rest).length < pat.length := by
            rcases Nat.lt_or_ge (a :: rest).length pat.length with h | h
            · exact h
            · exfalso
              have heq : a :: rest = pat := by
                have := List.prefix_iff_eq_take.mp h2
                have hle := h2.length_le
                have : (a :: rest).length = pat.length := Nat.le_antisymm hle h
                rw [List.prefix_iff_eq_take.mp h2, this, List.take_length]
              exact h1 ⟨by simp [← heq], by rw [heq]⟩
          rw [replaceAll_short pat rep _ hlt]
          rfl
        · rw [replaceAll_emit pat rep a rest h1, processLit_emit pat rep a rest h1 h2]
          have hr : rest.length ≤ k := by simp at hs; omega
          rw [ih rest hr]
          rfl

/-- The retained pending bytes of a stage step are stuck: feeding them again
emits nothing and retains them unchanged. -/
theorem processLit_stuck (pat rep : List α) :
    ∀ (k : Nat) (s : List α), s.length ≤ k →
      processLit pat rep ((processLit pat rep s).2) = ([], (processLit pat rep s).2) := by
  intro k
  induction k with
  | zero =>
    intro s hs
    have : s = [] := List.eq_nil_of_length_eq_zero (Nat.le_zero.mp hs)
    subst this
    rfl
  | succ k ih =>
    intro s hs
    cases s with
    | nil => rfl
    | cons a rest =>
      by_cases h1 : pat ≠ [] ∧ pat <+: (a :: rest)
      · have hplen : 1 ≤ pat.length := by
          cases hp : pat with
          | nil => exact absurd hp h1.1
          | cons b l => simp
        rw [processLit_match pat rep a rest h1.1 h1.2]
        have hd : ((a :: rest).drop pat.length).length ≤ k := by
          simp only [List.length_drop]
          simp at hs ⊢
          omega
        exact ih _ hd
      · by_cases h2 : (a :: rest) <+: pat
        · rw [processLit_pend pat rep a rest h1 h2]
          exact processLit_pend pat rep a rest h1 h2
        · rw [processLit_emit pat rep a rest h1 h2]
          have hr : rest.length ≤ k := by simp at hs; omega
          exact ih rest hr

/-- Composition: processing `s ++ t` in one step equals processing `s`, then
processing the retained pending bytes together with `t`. This is the key fact
making per-chunk processing independent of how the input is split. -/
theorem processLit_append (pat rep : List α) :
    ∀ (k : Nat) (s t : List α), s.length ≤ k →
      processLit pat rep (s ++ t) =
        ((processLit pat rep s).1 ++
            (processLit pat rep ((processLit pat rep s).2 ++ t)).1,
          (processLit pat rep ((processLit pat rep s).2 ++ t)).2) := by
  intro k
  induction k with
  | zero =>
    intro s t hs
    have : s = [] := List.eq_nil_of_length_eq_zero (Nat.le_zero.mp hs)
    subst this
    simp [processLit_nil]
  | succ k ih =>
    intro s t hs
    cases s with
    | nil => simp [processLit_nil]
    | cons a rest =>
      by_cases h1 : pat ≠ [] ∧ pat <+: (a :: rest)
      · have hplen : 1 ≤ pat.length := by
          cases hp : pat with
          | nil => exact absurd hp h1.1
          | cons b l => simp
        have hle : pat.length ≤ (a :: rest).length := h1.2.length_le
        have hpst : pat <+: (a :: rest) ++ t :=
          h1.2.trans (List.prefix_append (a :: rest) t)
        have hcons : (a :: rest) ++ t = a :: (rest ++ t) := rfl
        rw [hcons] at hpst
        have hstep : processLit pat rep ((a :: rest) ++ t) =
            (rep ++ (processLit pat rep ((a :: (rest ++ t)).drop pat.length)).1,
              (processLit pat rep ((a :: (rest ++ t)).drop pat.length)).2) := by
          rw [hcons]
          exact processLit_match pat rep a (rest ++ t) h1.1 hpst
        have hdropeq : (a :: (rest ++ t)).drop pat.length =
            (a :: rest).drop pat.length ++ t := by
          rw [← hcons]
          exact List.drop_append_of_le_length hle
        rw [hstep, hdropeq]
        have hd : ((a :: rest).drop pat.length).length ≤ k := by
          simp only [List.length_drop]
          simp at hs ⊢
          omega
        rw [ih _ t hd]
        rw [processLit_match pat rep a rest h1.1 h1.2]
        simp
      · by_cases h2 : (a :: rest) <+: pat
        · rw [processLit_pend pat rep a rest h1 h2]
          simp
        · have hg1 : ¬(pat ≠ [] ∧ pat <+: a :: (rest ++ t)) := by
            rintro ⟨hne, hp⟩
            rcases Nat.le_total pat.length (a :: rest).length with hle | hlt'
            · exact h1 ⟨hne, List.prefix_of_prefix_length_le hp
                (by rw [← List.cons_append]; exact List.prefix_append (a :: rest) t) hle⟩
            · exact h2 (List.prefix_of_prefix_length_le
                (by rw [← List.cons_append]; exact List.prefix_append (a :: rest) t)
                hp hlt')
          have hg2 : ¬(a :: (rest ++ t) <+: pat) := by
            intro hp
            exact h2 (((List.prefix_append (a :: rest) t).trans
              (by rw [List.cons_append]; exact hp)))
          have hstep : processLit pat rep ((a :: rest) ++ t) =
              (a :: (processLit pat rep (rest ++ t)).1,
                (processLit pat rep (rest ++ t)).2) := by
            rw [List.cons_append]
            exact processLit_emit pat rep a (rest ++ t) hg1 hg2
          rw [hstep]
          have hr : rest.length ≤ k := by simp at hs; omega
          rw [ih rest t hr]
          rw [processLit_emit pat rep a rest h1 h2]
          simp

/-- Modelled from the spec: one stage of the streaming pipeline — a literal
search pattern, its replacement, and the stage's Pending Buffer (spec 3,
"Pending Buffer"). -/
structure Stage (α : Type) where
  pat : List α
  rep : List α
  pend : List α

/-- Modelled from the spec: writing one chunk through the pipeline of stages;
stage i's emitted bytes are fed as stage i+1's input (spec 4.2, 9). Returns
the bytes emitted by the last stage and the updated stages. -/
def chainWrite : List (Stage α) → List α → List α × List (Stage α)
  | [], d => (d, [])
  | st :: sts, d =>
    let r := processLit st.pat st.rep (st.pend ++ d)
    let rest := chainWrite sts r.1
    (rest.1, ⟨st.pat, st.rep, r.2⟩ :: rest.2)

/-- Modelled from the spec: closing the pipeline — each stage processes the
carry arriving from the previous stage and then flushes its remaining Pending
Buffer unmodified to the next stage (spec 4.2, close). -/
def chainClose : List (Stage α) → List α → List α
  | [], carry => carry
  | st :: sts, carry =>
    let r := processLit st.pat st.rep (st.pend ++ carry)
    chainClose sts (r.1 ++ r.2)

/-- Writing a sequence of chunks through the pipeline, concatenating the
emitted bytes. -/
def chainWrites : List (Stage α) → List (List α) → List α × List (Stage α)
  | sts, [] => ([], sts)
  | sts, c :: cs =>
    let r := chainWrite sts c
    let rest := chainWrites r.2 cs
    (r.1 ++ rest.1, rest.2)

/-- Fresh stages for a rule list (pattern, replacement), with empty Pending
Buffers. -/
def initStages (rules : List (List α × List α)) : List (Stage α) :=
  rules.map fun pr => ⟨pr.1, pr.2, []⟩

/-- Modelled from the spec: the streaming engine run — write all chunks, then
close, concatenating everything emitted to the sink. -/
def chainStreamRun (rules : List (List α × List α)) (chunks : List (List α)) :
    List α :=
  let r := chainWrites (initStages rules) chunks
  r.1 ++ chainClose r.2 []

/-- Modelled from the spec: the one-shot buffered transform of the whole
chain — rule i's complete output is rule i+1's input (spec 3, 4.1). -/
def chainBuffered (rules : List (List α × List α)) (s : List α) : List α :=
  rules.foldl (fun acc pr => replaceAll pr.1 pr.2 acc) s

/-- All stages' Pending Buffers are stuck (reprocessing them emits nothing). -/
def StuckStages (sts : List (Stage α)) : Prop :=
  ∀ st ∈ sts, processLit st.pat st.rep st.pend = ([], st.pend)

theorem stuckStages_init (rules : List (List α × List α)) :
    StuckStages (initStages rules) := by
  intro st hst
  simp only [initStages, List.mem_map] at hst
  obtain ⟨pr, _, rfl⟩ := hst
  rfl

theorem chainWrite_stuck (sts : List (Stage α)) (d : List α)
    (h : StuckStages sts) : StuckStages (chainWrite sts d).2 := by
  induction sts generalizing d with
  | nil => intro st hst; simp [chainWrite] at hst
  | cons st sts ih =>
    intro st' hst'
    simp only [chainWrite, List.mem_cons] at hst'
    rcases hst' with h' | h'
    · subst h'
      exact processLit_stuck st.pat st.rep (st.pend ++ d).length (st.pend ++ d)
        (Nat.le_refl _)
    · exact ih _ (fun s hs => h s (List.mem_cons_of_mem st hs)) st' h'

theorem chainWrites_stuck (sts : List (Stage α)) (cs : List (List α))
    (h : StuckStages sts) : StuckStages (chainWrites sts cs).2 := by
  induction cs generalizing sts with
  | nil => exact h
  | cons c cs ih => exact ih _ (chainWrite_stuck sts c h)

/-- Writing a chunk and then closing with a carry equals closing with the
chunk prepended to the carry. -/
theorem chainWrite_close (sts : List (Stage α)) :
    ∀ (x y : List α), StuckStages sts →
      (chainWrite sts x).1 ++ chainClose (chainWrite sts x).2 y =
        chainClose sts (x ++ y) := by
  induction sts with
  | nil => intro x y _; simp [chainWrite, chainClose]
  | cons st sts ih =>
    intro x y h
    have hstuck : processLit st.pat st.rep st.pend = ([], st.pend) :=
      h st (List.mem_cons_self st sts)
    have htail : StuckStages sts := fun s hs => h s (List.mem_cons_of_mem st hs)
    simp only [chainWrite, chainClose]
    have hr2 : processLit st.pat st.rep
        ((processLit st.pat st.rep (st.pend ++ x)).2 ++ y) =
        ((processLit st.pat st.rep
          ((processLit st.pat st.rep (st.pend ++ x)).2 ++ y)).1,
          (processLit st.pat st.rep
            ((processLit st.pat st.rep (st.pend ++ x)).2 ++ y)).2) := rfl
    rw [ih _ _ htail]
    -- both sides are now a close of the tail stages; show the carries agree
    have hcomp := processLit_append st.pat st.rep (st.pend ++ x).length
      (st.pend ++ x) y (Nat.le_refl _)
    have hassoc : st.pend ++ x ++ y = st.pend ++ (x ++ y) := by
      rw [List.append_assoc]
    rw [← hassoc]
    rw [hcomp]
    simp

/-- Writing a chunk sequence and then closing with a carry equals closing
with the joined chunks prepended to the carry. -/
theorem chainWrites_close (cs : List (List α)) :
    ∀ (sts : List (Stage α)) (y : List α), StuckStages sts →
      (chainWrites sts cs).1 ++ chainClose (chainWrites sts cs).2 y =
        chainClose sts (cs.flatten ++ y) := by
  induction cs with
  | nil => intro sts y _; simp [chainWrites]
  | cons c cs ih =>
    intro sts y h
    simp only [chainWrites, List.flatten_cons]
    rw [List.append_assoc]
    rw [ih _ y (chainWrite_stuck sts c h)]
    rw [chainWrite_close sts c (cs.flatten ++ y) h]
    rw [List.append_assoc]

/-- Closing fresh stages on a buffer is exactly the buffered chain
transform. -/
theorem chainClose_init (rules : List (List α × List α)) :
    ∀ s : List α, chainClose (initStages rules) s = chainBuffered rules s := by
  induction rules with
  | nil => intro s; rfl
  | cons pr rules ih =>
    intro s
    simp only [initStages, List.map_cons, chainClose, List.nil_append]
    have hsplit : (processLit pr.1 pr.2 s).1 ++ (processLit pr.1 pr.2 s).2 =
        replaceAll pr.1 pr.2 s :=
      (replaceAll_eq_processLit pr.1 pr.2 s.length s (Nat.le_refl _)).symm
    rw [hsplit]
    show chainClose (initStages rules) (replaceAll pr.1 pr.2 s) = _
    rw [ih]
    rfl

/-- Spec's literal boundary split example: rule "foobar" -> "X", input
streamed as "fo" then "obar", yields "X". -/
example :
    chainStreamRun [(("foobar".data, "X".data))] ["fo".data, "obar".data] =
      "X".data := by decide

/-- Streaming/buffered equivalence for all-literal chains (the general
statement covering regex stages is C1's theorem further below, built on the
abstract matcher interface). -/
theorem chainStreamRun_eq_buffered (rules : List (List Char × List Char))
    (chunks : List (List Char)) :
    chainStreamRun rules chunks = chainBuffered rules chunks.flatten := by
  show (chainWrites (initStages rules) chunks).1 ++
      chainClose (chainWrites (initStages rules) chunks).2 [] = _
  rw [chainWrites_close chunks (initStages rules) [] (stuckStages_init rules)]
  rw [List.append_nil]
  exact chainClose_init rules chunks.flatten

/-- C7: replacement rules compose sequentially as a pipeline in list order:
rule i's complete output is rule i+1's input; in particular the chain
[A to B, B to C] applied to "A" yields "C", while the reversed chain
[B to C, A to B] applied to "A" yields "B". -/
theorem C7_rules_compose_sequentially :
    (∀ (pr : List Char × List Char) (rules : List (List Char × List Char))
        (s : List Char),
      chainBuffered (pr :: rules) s = chainBuffered rules (replaceAll pr.1 pr.2 s))
    ∧ chainBuffered [("A".data, "B".data), ("B".data, "C".data)] "A".data = "C".data
    ∧ chainBuffered [("B".data, "C".data), ("A".data, "B".data)] "A".data = "B".data :=
  ⟨fun _ _ _ => rfl, by decide, by decide⟩

/-- A replacement rule as configured (src/handler.go, type Replacement):
a literal substring to search, a regular expression to search, and the
replacement text. Precisely one of the two search fields must be set. -/
structure Replacement where
  search : String
  searchRegexp : String
  replace : String

/-- The errors Provision can return (src/handler.go lines 66-103), one
constructor per fmt.Errorf site. -/
inductive ProvisionError
  | noReplacements
  | noSearch (i : Nat)
  | bothSearch (i : Nat)
  | regexCompile (i : Nat) (msg : String)
deriving DecidableEq

/-- The error text of each Provision error, exactly as formatted by the
code. -/
def ProvisionError.message : ProvisionError → String
  | .noReplacements => "no replacements configured"
  | .noSearch i => "replacement " ++ toString i ++ ": no search or search_regexp configured"
  | .bothSearch i => "replacement " ++ toString i ++ ": cannot specify both search and search_regexp in same replacement"
  | .regexCompile i msg => "replacement " ++ toString i ++ ": " ++ msg

/-- The validation loop of Provision (src/handler.go lines 72-86), indexed by
the position of the head rule. Regex compilation is the external
regexp.Compile, passed in as a function from pattern to success or syntax
error message. -/
def provisionLoop (compile : String → Except String Unit) :
    Nat → List Replacement → Except ProvisionError Unit
  | _, [] => Except.ok ()
  | i, r :: rs =>
    if r.search = "" ∧ r.searchRegexp = "" then Except.error (.noSearch i)
    else if r.search ≠ "" ∧ r.searchRegexp ≠ "" then Except.error (.bothSearch i)
    else if r.searchRegexp ≠ "" then
      match compile r.searchRegexp with
      | .error e => Except.error (.regexCompile i e)
      | .ok _ => provisionLoop compile (i + 1) rs
    else provisionLoop compile (i + 1) rs

/-- Provision (src/handler.go lines 66-103): empty-list check, then the
per-rule validation loop. The transformer pool construction has no failure
cases and is modelled separately. -/
def provision (compile : String → Except String Unit)
    (repls : List Replacement) : Except ProvisionError Unit :=
  if repls.isEmpty then Except.error .noReplacements
  else provisionLoop compile 0 repls

/-- A structurally valid rule: exactly one search field set, and if it is the
regex field, the pattern compiles. -/
def RuleOk (compile : String → Except String Unit) (r : Replacement) : Prop :=
  ¬(r.search = "" ∧ r.searchRegexp = "") ∧
    ¬(r.search ≠ "" ∧ r.searchRegexp ≠ "") ∧
    (r.searchRegexp ≠ "" → compile r.searchRegexp = Except.ok ())

theorem provisionLoop_cons_ok (compile : String → Except String Unit)
    (r : Replacement) (rs : List Replacement) (k : Nat)
    (h : RuleOk compile r) :
    provisionLoop compile k (r :: rs) = provisionLoop compile (k + 1) rs := by
  obtain ⟨h1, h2, h3⟩ := h
  simp only [provisionLoop]
  rw [if_neg h1, if_neg h2]
  by_cases hre : r.searchRegexp ≠ ""
  · rw [if_pos hre, h3 hre]
  · rw [if_neg hre]

theorem provisionLoop_ok_iff (compile : String → Except String Unit) :
    ∀ (rs : List Replacement) (k : Nat),
      provisionLoop compile k rs = Except.ok () ↔ ∀ r ∈ rs, RuleOk compile r := by
  intro rs
  induction rs with
  | nil => intro k; simp [provisionLoop]
  | cons r rs ih =>
    intro k
    constructor
    · intro hok
      simp only [provisionLoop] at hok
      by_cases h1 : r.search = "" ∧ r.searchRegexp = ""
      · rw [if_pos h1] at hok; exact absurd hok (by simp)
      · rw [if_neg h1] at hok
        by_cases h2 : r.search ≠ "" ∧ r.searchRegexp ≠ ""
        · rw [if_pos h2] at hok; exact absurd hok (by simp)
        · rw [if_neg h2] at hok
          by_cases h3 : r.searchRegexp ≠ ""
          · rw [if_pos h3] at hok
            cases hc : compile r.searchRegexp with
            | error e => rw [hc] at hok; exact absurd hok (by simp)
            | ok u =>
              rw [hc] at hok
              intro s hs
              rcases List.mem_cons.mp hs with h' | h'
              · subst h'
                exact ⟨h1, h2, fun _ => by rw [hc]⟩
              · exact ((ih (k + 1)).mp hok) s h'
          · rw [if_neg h3] at hok
            intro s hs
            rcases List.mem_cons.mp hs with h' | h'
            · subst h'
              exact ⟨h1, h2, fun hcon => absurd hcon h3⟩
            · exact ((ih (k + 1)).mp hok) s h'
    · intro hall
      rw [provisionLoop_cons_ok compile r rs k (hall r (List.mem_cons_self r rs))]
      exact (ih (k + 1)).mpr fun s hs => hall s (List.mem_cons_of_mem r hs)

/-- provisionLoop never reports the empty-configuration error. -/
theorem provisionLoop_ne_noReplacements (compile : String → Except String Unit) :
    ∀ (rs : List Replacement) (k : Nat),
      provisionLoop compile k rs ≠ Except.error ProvisionError.noReplacements := by
  intro rs
  induction rs with
  | nil => intro k h; exact absurd h (by simp [provisionLoop])
  | cons r rs ih =>
    intro k h
    simp only [provisionLoop] at h
    by_cases h1 : r.search = "" ∧ r.searchRegexp = ""
    · rw [if_pos h1] at h; simp at h
    · rw [if_neg h1] at h
      by_cases h2 : r.search ≠ "" ∧ r.searchRegexp ≠ ""
      · rw [if_pos h2] at h; simp at h
      · rw [if_neg h2] at h
        by_cases h3 : r.searchRegexp ≠ ""
        · rw [if_pos h3] at h
          cases hc : compile r.searchRegexp with
          | error e => rw [hc] at h; simp at h
          | ok u => rw [hc] at h; exact ih (k + 1) h
        · rw [if_neg h3] at h; exact ih (k + 1) h

/-- The loop passes over a prefix of valid rules, advancing the index. -/
theorem provisionLoop_append_ok (compile : String → Except String Unit) :
    ∀ (rs₁ : List Replacement), (∀ r ∈ rs₁, RuleOk compile r) →
      ∀ (rs₂ : List Replacement) (k : Nat),
        provisionLoop compile k (rs₁ ++ rs₂) =
          provisionLoop compile (k + rs₁.length) rs₂ := by
  intro rs₁
  induction rs₁ with
  | nil => intro _ rs₂ k; simp
  | cons r rs ih =>
    intro hok rs₂ k
    rw [List.cons_append,
      provisionLoop_cons_ok compile r (rs ++ rs₂) k (hok r (List.mem_cons_self r rs))]
    rw [ih (fun s hs => hok s (List.mem_cons_of_mem r hs)) rs₂ (k + 1)]
    congr 1
    simp
    omega

/-- C4: Provision fails exactly on structurally invalid configuration. It
returns the "no replacements configured" error precisely when the rule list
is empty; a rule with neither search field set (all earlier rules valid)
yields an error carrying that rule's index; a rule with both set likewise;
and when the list is non-empty and every rule is well-formed with compiling
regexes, Provision succeeds. The message equations show each error text names
the rule index exactly as the code formats it. -/
theorem C4_provision_validation (compile : String → Except String Unit) :
    (∀ repls : List Replacement,
      (provision compile repls = Except.error ProvisionError.noReplacements ↔
        repls = []))
    ∧ ProvisionError.message ProvisionError.noReplacements =
        "no replacements configured"
    ∧ (∀ (rs₁ : List Replacement) (r : Replacement) (rs₂ : List Replacement),
        (∀ r' ∈ rs₁, RuleOk compile r') →
        (r.search = "" ∧ r.searchRegexp = "" →
          provision compile (rs₁ ++ r :: rs₂) =
            Except.error (ProvisionError.noSearch rs₁.length))
        ∧ (r.search ≠ "" ∧ r.searchRegexp ≠ "" →
          provision compile (rs₁ ++ r :: rs₂) =
            Except.error (ProvisionError.bothSearch rs₁.length)))
    ∧ (∀ i, (ProvisionError.noSearch i).message =
        "replacement " ++ toString i ++ ": no search or search_regexp configured")
    ∧ (∀ i, (ProvisionError.bothSearch i).message =
        "replacement " ++ toString i ++
          ": cannot specify both search and search_regexp in same replacement")
    ∧ (∀ repls : List Replacement, repls ≠ [] →
        (∀ r ∈ repls, RuleOk compile r) →
        provision compile repls = Except.ok ()) := by
  refine ⟨?_, rfl, ?_, fun i => rfl, fun i => rfl, ?_⟩
  · intro repls
    constructor
    · intro h
      by_cases he : repls.isEmpty
      · exact List.isEmpty_iff.mp he
      · rw [provision, if_neg he] at h
        exact absurd h (provisionLoop_ne_noReplacements compile repls 0)
    · intro h
      subst h
      rfl
  · intro rs₁ r rs₂ hok
    have hne : ¬(rs₁ ++ r :: rs₂).isEmpty := by
      simp
    have hloop : provisionLoop compile 0 (rs₁ ++ r :: rs₂) =
        provisionLoop compile rs₁.length (r :: rs₂) := by
      rw [provisionLoop_append_ok compile rs₁ hok (r :: rs₂) 0]
      simp
    constructor
    · rintro ⟨hs, hr⟩
      rw [provision, if_neg hne, hloop]
      simp only [provisionLoop]
      rw [if_pos ⟨hs, hr⟩]
    · intro hboth
      rw [provision, if_neg hne, hloop]
      simp only [provisionLoop]
      rw [if_neg (by rintro ⟨h1, _⟩; exact hboth.1 h1), if_pos hboth]
  · intro repls hne hall
    rw [provision, if_neg (by simpa using hne)]
    exact (provisionLoop_ok_iff compile repls 0).mpr hall

/-- Witness for C4 at concrete inputs: empty list, a rule with neither field,
a rule with both fields, and a fully valid list. -/
theorem C4_provision_validation_witness :
    provision (fun _ => Except.ok ()) [] =
      Except.error ProvisionError.noReplacements
    ∧ provision (fun _ => Except.ok ()) [⟨"", "", "x"⟩] =
      Except.error (ProvisionError.noSearch 0)
    ∧ provision (fun _ => Except.ok ()) [⟨"a", "b", "x"⟩] =
      Except.error (ProvisionError.bothSearch 0)
    ∧ provision (fun _ => Except.ok ()) [⟨"a", "", "x"⟩] = Except.ok () := by
  have h := C4_provision_validation (fun _ => Except.ok ())
  refine ⟨(h.1 []).mpr rfl, ?_, ?_, ?_⟩
  · have h2 := (h.2.2.1 [] ⟨"", "", "x"⟩ [] (by intro r hr; simp at hr)).1
      ⟨rfl, rfl⟩
    simpa using h2
  · have h2 := (h.2.2.1 [] ⟨"a", "b", "x"⟩ [] (by intro r hr; simp at hr)).2
      ⟨by decide, by decide⟩
    simpa using h2
  · exact h.2.2.2.2.2 [⟨"a", "", "x"⟩] (by simp)
      (by intro r hr; simp at hr; subst hr
          exact ⟨by decide, by decide, fun hcon => absurd rfl hcon⟩)

/-- C5: when a rule's search_regexp fails to compile (all earlier rules
valid), Provision fails with the regex-compile error carrying that rule's
index, and the error text names the index and includes the underlying
regex error. -/
theorem C5_regex_compile_error (compile : String → Except String Unit)
    (rs₁ : List Replacement) (r : Replacement) (rs₂ : List Replacement)
    (e : String) (hok : ∀ r' ∈ rs₁, RuleOk compile r')
    (hs : r.search = "") (hre : r.searchRegexp ≠ "")
    (hc : compile r.searchRegexp = Except.error e) :
    provision compile (rs₁ ++ r :: rs₂) =
      Except.error (ProvisionError.regexCompile rs₁.length e)
    ∧ (ProvisionError.regexCompile rs₁.length e).message =
      "replacement " ++ toString rs₁.length ++ ": " ++ e := by
  refine ⟨?_, rfl⟩
  have hne : ¬(rs₁ ++ r :: rs₂).isEmpty := by simp
  rw [provision, if_neg hne,
    provisionLoop_append_ok compile rs₁ hok (r :: rs₂) 0]
  simp only [Nat.zero_add]
  simp only [provisionLoop]
  rw [if_neg (by rintro ⟨_, h2⟩; exact hre h2),
    if_neg (by rintro ⟨h1, _⟩; exact h1 hs), if_pos hre, hc]

/-- Witness for C5: a one-rule list whose regex pattern fails to compile. -/
theorem C5_regex_compile_error_witness :
    provision
      (fun s => if s = "(" then Except.error "missing closing )" else Except.ok ())
      [⟨"", "(", "x"⟩] =
      Except.error (ProvisionError.regexCompile 0 "missing closing )") := by
  have h := C5_regex_compile_error
    (fun s => if s = "(" then Except.error "missing closing )" else Except.ok ())
    [] ⟨"", "(", "x"⟩ [] "missing closing )" (by intro r hr; simp at hr)
    rfl (by decide) rfl
  simpa using h.1

/-- A header map, as a list of name/value entries; Get returns "" when the
name is absent, as Go's http.Header.Get does. -/
def hGet (hdrs : List (String × String)) (k : String) : String :=
  match hdrs.find? (fun kv => kv.1 == k) with
  | some kv => kv.2
  | none => ""

/-- Header Set: replace any entry for the name with the single new value. -/
def hSet (hdrs : List (String × String)) (k v : String) :
    List (String × String) :=
  (k, v) :: hdrs.filter (fun kv => !(kv.1 == k))

/-- Header Del: remove all entries for the name. -/
def hDel (hdrs : List (String × String)) (k : String) :
    List (String × String) :=
  hdrs.filter (fun kv => !(kv.1 == k))

/-- The calls the handler makes on the underlying response writer, in
order. -/
inductive WEvent
  | setHeader (k v : String)
  | delHeader (k : String)
  | writeHeader (status : Nat)
  | writeBody (data : List Char)
deriving DecidableEq

/-- The effect of an event on the response's header map (body and status
writes leave headers unchanged). -/
def applyEvent (hdrs : List (String × String)) : WEvent → List (String × String)
  | .setHeader k v => hSet hdrs k v
  | .delHeader k => hDel hdrs k
  | _ => hdrs

def applyEvents (hdrs : List (String × String)) (evs : List WEvent) :
    List (String × String) :=
  evs.foldl applyEvent hdrs

theorem hGet_hSet_self (hdrs : List (String × String)) (k v : String) :
    hGet (hSet hdrs k v) k = v := by
  simp [hGet, hSet, List.find?]

theorem hGet_hDel_self (hdrs : List (String × String)) (k : String) :
    hGet (hDel hdrs k) k = "" := by
  simp only [hGet, hDel]
  have : (hdrs.filter (fun kv => !(kv.1 == k))).find? (fun kv => kv.1 == k) =
      none := by
    rw [List.find?_eq_none]
    intro kv hkv
    have := List.of_mem_filter hkv
    simp at this
    simp [this]
  rw [this]

/-- The buffered (non-stream) path of ServeHTTP (src/handler.go lines
123-157): given the outcome of the transform on the recorded body, the
recorder's buffered flag and status, and the current header map, it produces
the ordered writer calls and the handler's returned error. `tr` is the
chained transformer applied by transform.Bytes; `nextErr` is the error
returned by the next handler. On any error, nothing is written. -/
def serveBuffered (tr : List Char → Except String (List Char))
    (nextErr : Option String) (recBuffered : Bool) (recStatus : Nat)
    (recBody : List Char) (hdrs : List (String × String)) :
    List WEvent × Option String :=
  match nextErr with
  | some e => ([], some e)
  | none =>
    if !recBuffered then ([], none)
    else
      match tr recBody with
      | .error e => ([], some e)
      | .ok result =>
        ((if hGet hdrs "Content-Length" ≠ "" then
            [WEvent.setHeader "Content-Length" (toString result.length)]
          else []) ++
          (if recStatus > 0 then [WEvent.writeHeader recStatus] else []) ++
          [WEvent.writeBody result], none)

/-- C2: in buffered mode with a successful transform, when the response
carries a non-empty Content-Length header it is set to the decimal byte
length of the transformed body, and that header write is the first call,
before the status and body are written; when no Content-Length header is
present, none is added and the final header map still lacks one. -/
theorem C2_buffered_content_length (tr : List Char → Except String (List Char))
    (recStatus : Nat) (recBody : List Char) (hdrs : List (String × String))
    (result : List Char) (htr : tr recBody = Except.ok result) :
    (serveBuffered tr none true recStatus recBody hdrs).2 = none
    ∧ (hGet hdrs "Content-Length" ≠ "" →
        hGet (applyEvents hdrs (serveBuffered tr none true recStatus recBody hdrs).1)
            "Content-Length" = toString result.length
        ∧ (serveBuffered tr none true recStatus recBody hdrs).1.head? =
            some (WEvent.setHeader "Content-Length" (toString result.length)))
    ∧ (hGet hdrs "Content-Length" = "" →
        (∀ k v, WEvent.setHeader k v ∈
            (serveBuffered tr none true recStatus recBody hdrs).1 → False)
        ∧ hGet (applyEvents hdrs (serveBuffered tr none true recStatus recBody hdrs).1)
            "Content-Length" = "") := by
  have hserve : serveBuffered tr none true recStatus recBody hdrs =
      ((if hGet hdrs "Content-Length" ≠ "" then
          [WEvent.setHeader "Content-Length" (toString result.length)]
        else []) ++
        (if recStatus > 0 then [WEvent.writeHeader recStatus] else []) ++
        [WEvent.writeBody result], none) := by
    simp [serveBuffered, htr]
  rw [hserve]
  refine ⟨rfl, ?_, ?_⟩
  · intro hcl
    rw [if_pos hcl]
    by_cases hst : recStatus > 0
    · rw [if_pos hst]
      refine ⟨?_, rfl⟩
      simp only [applyEvents, List.cons_append, List.nil_append, List.foldl,
        applyEvent]
      exact hGet_hSet_self _ _ _
    · rw [if_neg hst]
      refine ⟨?_, rfl⟩
      simp only [applyEvents, List.cons_append, List.nil_append, List.foldl,
        applyEvent]
      exact hGet_hSet_self _ _ _
  · intro hcl
    have hcond : ¬(hGet hdrs "Content-Length" ≠ "") := fun h => h hcl
    rw [if_neg hcond]
    by_cases hst : recStatus > 0
    · rw [if_pos hst]
      refine ⟨?_, ?_⟩
      · intro k v hmem
        simp at hmem
      · simp only [applyEvents, List.cons_append, List.nil_append, List.foldl,
          applyEvent]
        exact hcl
    · rw [if_neg hst]
      refine ⟨?_, ?_⟩
      · intro k v hmem
        simp at hmem
      · simp only [applyEvents, List.cons_append, List.nil_append, List.foldl,
          applyEvent]
        exact hcl

/-- Witness for C2: a length-changing transform with a Content-Length header
present, and, bundled through the theorem's other conjunct, the no-header
case. -/
theorem C2_buffered_content_length_witness :
    hGet [("Content-Length", "2")] "Content-Length" ≠ ""
    ∧ hGet (applyEvents [("Content-Length", "2")]
        (serveBuffered (fun _ => Except.ok "XYZ".data) none true 200 "hi".data
          [("Content-Length", "2")]).1) "Content-Length" = "3" := by
  refine ⟨by decide, ?_⟩
  have h := (C2_buffered_content_length (fun _ => Except.ok "XYZ".data) 200
    "hi".data [("Content-Length", "2")] "XYZ".data rfl).2.1 (by decide)
  exact h.1

/-- C6: in buffered mode, if the one-shot transform fails, ServeHTTP returns
that error and writes nothing at all to the underlying writer: no header
mutation, no status, no body bytes. -/
theorem C6_buffered_transform_error (tr : List Char → Except String (List Char))
    (recStatus : Nat) (recBody : List Char) (hdrs : List (String × String))
    (e : String) (htr : tr recBody = Except.error e) :
    serveBuffered tr none true recStatus recBody hdrs = ([], some e) := by
  simp [serveBuffered, htr]

/-- Witness for C6: a failing transform produces the error and an empty call
trace. -/
theorem C6_buffered_transform_error_witness :
    serveBuffered (fun _ => Except.error "transform: short source buffer")
        none true 200 "body".data [("Content-Length", "4")] =
      ([], some "transform: short source buffer") :=
  C6_buffered_transform_error _ 200 "body".data [("Content-Length", "4")]
    "transform: short source buffer" rfl

/-- C8: in buffered mode, when the recorder reports that nothing was
buffered, ServeHTTP returns without error and makes no writer calls at all;
the result does not depend on the transformer, so no transform occurs. -/
theorem C8_unbuffered_noop (tr : List Char → Except String (List Char))
    (recStatus : Nat) (recBody : List Char) (hdrs : List (String × String)) :
    serveBuffered tr none false recStatus recBody hdrs = ([], none) := by
  simp [serveBuffered]

/-- The state of the streaming response writer (src/handler.go, type
replaceWriter): whether headers were finalized, and the transform writer's
pipeline stages. -/
structure RWState where
  wroteHeader : Bool
  stages : List (Stage Char)

/-- replaceWriter.WriteHeader (src/handler.go lines 185-196): a second call
is ignored; the first call deletes Content-Length and then writes the status
through the wrapped writer. -/
def rwWriteHeader (st : RWState) (status : Nat) : RWState × List WEvent :=
  if st.wroteHeader then (st, [])
  else
    ({ st with wroteHeader := true },
      [WEvent.delHeader "Content-Length", WEvent.writeHeader status])

/-- replaceWriter.Write (src/handler.go lines 198-203): finalizes headers
with status 200 if not yet done, then routes the chunk through the transform
writer, which forwards the transformed bytes to the underlying writer. -/
def rwWrite (st : RWState) (d : List Char) : RWState × List WEvent :=
  let h := if st.wroteHeader then (st, []) else rwWriteHeader st 200
  let r := chainWrite h.1.stages d
  (⟨h.1.wroteHeader, r.2⟩, h.2 ++ [WEvent.writeBody r.1])

/-- A call the upstream handler makes on the response writer. -/
inductive UpOp
  | writeHeader (status : Nat)
  | write (data : List Char)

def rwStep (st : RWState) : UpOp → RWState × List WEvent
  | .writeHeader s => rwWriteHeader st s
  | .write d => rwWrite st d

def rwRun : RWState → List UpOp → RWState × List WEvent
  | st, [] => (st, [])
  | st, op :: ops =>
    let r := rwStep st op
    let rest := rwRun r.1 ops
    (rest.1, r.2 ++ rest.2)

/-- The streaming branch of ServeHTTP (src/handler.go lines 112-120): a fresh
replaceWriter with fresh pipeline stages serves the upstream's calls; the
deferred Close flushes the transform writer's remainder straight to the
underlying writer. -/
def serveStream (rules : List (List Char × List Char)) (ops : List UpOp) :
    List WEvent :=
  let r := rwRun ⟨false, initStages rules⟩ ops
  r.2 ++ [WEvent.writeBody (chainClose r.1.stages [])]

/-- Only body-write events. -/
def allWriteBody (evs : List WEvent) : Prop :=
  ∀ e ∈ evs, ∃ d, e = WEvent.writeBody d

/-- Once headers are finalized, the writer only ever emits body writes and
stays finalized. -/
theorem rwRun_wroteHeader (ops : List UpOp) :
    ∀ st : RWState, st.wroteHeader = true →
      (rwRun st ops).1.wroteHeader = true ∧ allWriteBody (rwRun st ops).2 := by
  induction ops with
  | nil =>
    intro st h
    exact ⟨h, fun e he => absurd he (by simp [rwRun])⟩
  | cons op ops ih =>
    intro st h
    cases op with
    | writeHeader s =>
      have hstep : rwStep st (UpOp.writeHeader s) = (st, []) := by
        simp [rwStep, rwWriteHeader, h]
      simp only [rwRun, hstep]
      have := ih st h
      exact ⟨this.1, by simpa using this.2⟩
    | write d =>
      have hstep : rwStep st (UpOp.write d) =
          (⟨true, (chainWrite st.stages d).2⟩,
            [WEvent.writeBody (chainWrite st.stages d).1]) := by
        simp [rwStep, rwWrite, h]
      simp only [rwRun, hstep]
      have := ih ⟨true, (chainWrite st.stages d).2⟩ rfl
      refine ⟨this.1, ?_⟩
      intro e he
      simp only [List.mem_append, List.mem_singleton] at he
      rcases he with he | he
      · exact ⟨_, he⟩
      · exact this.2 e he

/-- The status the underlying writer receives from the first upstream call. -/
def statusOf : UpOp → Nat
  | .writeHeader s => s
  | .write _ => 200

/-- Shape of a streaming run with at least one upstream call: the very first
two events are the Content-Length deletion and the single status write, and
everything after is body writes only. -/
theorem serveStream_shape (rules : List (List Char × List Char)) (op : UpOp)
    (ops : List UpOp) :
    ∃ rest, serveStream rules (op :: ops) =
        WEvent.delHeader "Content-Length" ::
          WEvent.writeHeader (statusOf op) :: rest
      ∧ allWriteBody rest := by
  cases op with
  | writeHeader s =>
    have hstep : rwStep ⟨false, initStages rules⟩ (UpOp.writeHeader s) =
        (⟨true, initStages rules⟩,
          [WEvent.delHeader "Content-Length", WEvent.writeHeader s]) := by
      simp [rwStep, rwWriteHeader]
    have hrun := rwRun_wroteHeader ops ⟨true, initStages rules⟩ rfl
    refine ⟨(rwRun ⟨true, initStages rules⟩ ops).2 ++
      [WEvent.writeBody (chainClose (rwRun ⟨true, initStages rules⟩ ops).1.stages [])],
      ?_, ?_⟩
    · simp only [serveStream, rwRun, hstep]
      simp [statusOf]
    · intro e he
      simp only [List.mem_append, List.mem_singleton] at he
      rcases he with he | he
      · exact hrun.2 e he
      · exact ⟨_, he⟩
  | write d =>
    have hstep : rwStep ⟨false, initStages rules⟩ (UpOp.write d) =
        (⟨true, (chainWrite (initStages rules) d).2⟩,
          [WEvent.delHeader "Content-Length", WEvent.writeHeader 200,
            WEvent.writeBody (chainWrite (initStages rules) d).1]) := by
      simp [rwStep, rwWrite, rwWriteHeader]
    have hrun := rwRun_wroteHeader ops
      ⟨true, (chainWrite (initStages rules) d).2⟩ rfl
    refine ⟨WEvent.writeBody (chainWrite (initStages rules) d).1 ::
      ((rwRun ⟨true, (chainWrite (initStages rules) d).2⟩ ops).2 ++
        [WEvent.writeBody (chainClose
          (rwRun ⟨true, (chainWrite (initStages rules) d).2⟩ ops).1.stages [])]),
      ?_, ?_⟩
    · simp only [serveStream, rwRun, hstep]
      simp [statusOf]
    · intro e he
      simp only [List.mem_cons, List.mem_append, List.mem_singleton,
        List.not_mem_nil, or_false] at he
      rcases he with he | he | he
      · exact ⟨_, he⟩
      · exact hrun.2 e he
      · exact ⟨_, he⟩

/-- Body writes do not modify headers. -/
theorem applyEvents_allWriteBody (evs : List WEvent) :
    ∀ hdrs : List (String × String), allWriteBody evs →
      applyEvents hdrs evs = hdrs := by
  induction evs with
  | nil => intro hdrs _; rfl
  | cons e evs ih =>
    intro hdrs hall
    obtain ⟨d, rfl⟩ := hall e (List.mem_cons_self e evs)
    show applyEvents hdrs evs = hdrs
    exact ih hdrs fun e' he' => hall e' (List.mem_cons_of_mem _ he')

/-- C3: in streaming mode, for every response header map and every non-empty
interleaving of upstream WriteHeader and Write calls, the very first calls to
the underlying writer are the Content-Length deletion followed by the status
write — so the length header is removed before any body byte is forwarded
and no body byte precedes header finalization — and the final header map
carries no Content-Length, whatever the upstream had set. -/
theorem C3_stream_removes_content_length (rules : List (List Char × List Char))
    (hdrs : List (String × String)) (op : UpOp) (ops : List UpOp) :
    ∃ (k : Nat) (rest : List WEvent),
      serveStream rules (op :: ops) =
          WEvent.delHeader "Content-Length" :: WEvent.writeHeader k :: rest
        ∧ allWriteBody rest
        ∧ hGet (applyEvents hdrs (serveStream rules (op :: ops)))
            "Content-Length" = "" := by
  obtain ⟨rest, hshape, hbody⟩ := serveStream_shape rules op ops
  refine ⟨statusOf op, rest, hshape, hbody, ?_⟩
  rw [hshape]
  show hGet (applyEvents (applyEvent (applyEvent hdrs _) _) rest)
    "Content-Length" = ""
  rw [applyEvents_allWriteBody rest _ hbody]
  exact hGet_hDel_self hdrs "Content-Length"

/-- Number of status writes reaching the underlying writer. -/
def countWriteHeader (evs : List WEvent) : Nat :=
  (evs.filter fun e =>
    match e with
    | .writeHeader _ => true
    | _ => false).length

theorem countWriteHeader_allWriteBody (evs : List WEvent)
    (h : allWriteBody evs) : countWriteHeader evs = 0 := by
  induction evs with
  | nil => rfl
  | cons e evs ih =>
    obtain ⟨d, rfl⟩ := h e (List.mem_cons_self e evs)
    show countWriteHeader evs = 0
    exact ih fun e' he' => h e' (List.mem_cons_of_mem _ he')

/-- C10: in streaming mode the underlying writer's WriteHeader runs at most
once per response; a first Write with headers not yet written finalizes them
with status 200; and once headers are written, any further WriteHeader call,
whatever its status, changes nothing and emits nothing. -/
theorem C10_writeheader_at_most_once (rules : List (List Char × List Char)) :
    (∀ ops : List UpOp, countWriteHeader (serveStream rules ops) ≤ 1)
    ∧ (∀ (d : List Char) (ops : List UpOp), ∃ rest,
        serveStream rules (UpOp.write d :: ops) =
            WEvent.delHeader "Content-Length" :: WEvent.writeHeader 200 :: rest
          ∧ allWriteBody rest)
    ∧ (∀ (stages : List (Stage Char)) (s : Nat),
        rwWriteHeader ⟨true, stages⟩ s = (⟨true, stages⟩, [])) := by
  refine ⟨?_, ?_, ?_⟩
  · intro ops
    cases ops with
    | nil => simp [serveStream, rwRun, countWriteHeader]
    | cons op ops =>
      obtain ⟨rest, hshape, hbody⟩ := serveStream_shape rules op ops
      rw [hshape]
      show ((WEvent.delHeader "Content-Length" :: WEvent.writeHeader (statusOf op)
        :: rest).filter _).length ≤ 1
      simp only [List.filter]
      have := countWriteHeader_allWriteBody rest hbody
      simp only [countWriteHeader] at this
      simp [this]
  · intro d ops
    obtain ⟨rest, hshape, hbody⟩ := serveStream_shape rules (UpOp.write d) ops
    exact ⟨rest, hshape, hbody⟩
  · intro stages s
    simp [rwWriteHeader]

/-- Transformer Reset as invoked at acquisition (src/handler.go line 109,
tr.Reset() right after the pool Get): every stage's Pending Buffer is
cleared; the rules themselves are untouched. -/
def resetStages (sts : List (Stage Char)) : List (Stage Char) :=
  sts.map fun st => ⟨st.pat, st.rep, []⟩

/-- One request cycle on a pooled transformer instance (src/handler.go lines
108-110): the pool hands out an instance in whatever state its previous use
left it; the cycle resets it and then streams its own chunks through it; the
instance is returned to the pool afterwards. -/
def poolCycle (sts : List (Stage Char)) (chunks : List (List Char)) :
    List Char :=
  let r := chainWrites (resetStages sts) chunks
  r.1 ++ chainClose r.2 []

theorem resetStages_eq_init (sts : List (Stage Char)) :
    resetStages sts = initStages (sts.map fun st => (st.pat, st.rep)) := by
  rw [initStages, List.map_map]
  rfl

/-- C9: every use of a pooled transformer instance starts on empty Pending
Buffers — the cycle resets the instance right after drawing it — so the
bytes a request produces depend only on the rules and its own input, never
on whatever pending match state the previous use of the same instance left
behind. -/
theorem C9_pool_reset_isolation (sts sts' : List (Stage Char))
    (chunks : List (List Char)) :
    (∀ st ∈ resetStages sts, st.pend = [])
    ∧ ((sts.map fun st => (st.pat, st.rep)) =
          (sts'.map fun st => (st.pat, st.rep)) →
        poolCycle sts chunks = poolCycle sts' chunks) := by
  constructor
  · intro st hst
    simp only [resetStages, List.mem_map] at hst
    obtain ⟨s, _, rfl⟩ := hst
    rfl
  · intro hrules
    simp only [poolCycle, resetStages_eq_init, hrules]

/-- Witness for C9: an instance left with a half-matched "a" pending for the
rule ab to X produces the same output as a clean instance once reset. -/
theorem C9_pool_reset_isolation_witness :
    poolCycle [⟨"ab".data, "X".data, "a".data⟩] ["b".data] =
      poolCycle [⟨"ab".data, "X".data, []⟩] ["b".data] :=
  (C9_pool_reset_isolation [⟨"ab".data, "X".data, "a".data⟩]
    [⟨"ab".data, "X".data, []⟩] ["b".data]).2 (by decide)

/-- Modelled from the spec: the front-matching capability of one rule's
pattern (spec 4.2, 9: "matching as a capability dispatched by tag"; for a
regex stage, "a match can be confirmed or ruled out"). `matchAt s` returns
the confirmed front match on the bytes seen so far — the number of input
bytes it consumes and the replacement bytes — or `none` when no front match
is confirmed yet; `couldMatch s` says a front match cannot yet be ruled out.
The Prop fields are the finality laws the spec's stage relies on: a
confirmed match stays confirmed under more input, a match is confirmed as
soon as all its bytes are present, and a ruled-out front stays ruled out. -/
structure Matcher (α : Type) where
  matchAt : List α → Option (Nat × List α)
  couldMatch : List α → Bool
  matchAt_bounds : ∀ s n rep, matchAt s = some (n, rep) → 1 ≤ n ∧ n ≤ s.length
  matchAt_extend : ∀ s t n rep, matchAt s = some (n, rep) →
    matchAt (s ++ t) = some (n, rep)
  matchAt_confirm : ∀ s t n rep, matchAt (s ++ t) = some (n, rep) →
    n ≤ s.length → matchAt s = some (n, rep)
  ruledOut_extend : ∀ s t, couldMatch s = false → matchAt (s ++ t) = none
  couldMatch_extend : ∀ s t, couldMatch s = false → couldMatch (s ++ t) = false

/-- Modelled from the spec: one step of a generic (literal or regex) stage
with bounded lookahead `B` (spec 4.2), fuel-indexed. On the window of bytes
seen and not yet decided: a confirmed front match is replaced; a front that
could still match is held as the Pending Buffer while it fits the lookahead
window; if it cannot be confirmed or ruled out within the bound, the stage
gives up waiting on that position, emits its byte unmodified, and resumes
scanning fresh at the next position — so matches longer than the bound are
silently not replaced; a ruled-out front byte is emitted as decided. -/
def processMF (m : Matcher α) (B : Nat) : Nat → List α → List α × List α
  | _, [] => ([], [])
  | 0, a :: rest => ([], a :: rest)
  | f + 1, a :: rest =>
    match m.matchAt (a :: rest) with
    | some (n, rep) =>
      let r := processMF m B f ((a :: rest).drop n)
      (rep ++ r.1, r.2)
    | none =>
      if m.couldMatch (a :: rest) = true ∧ (a :: rest).length ≤ B then
        ([], a :: rest)
      else
        let r := processMF m B f rest
        (a :: r.1, r.2)

/-- A generic stage step with exactly enough fuel. -/
def processM (m : Matcher α) (B : Nat) (s : List α) : List α × List α :=
  processMF m B s.length s

/-- Modelled from the spec: the one-shot buffered transform of one rule
given its matching capability (spec 4.1): with the whole input present,
replace each confirmed leftmost front match and pass every other byte
through. -/
def replaceAllMF (m : Matcher α) : Nat → List α → List α
  | _, [] => []
  | 0, a :: rest => a :: rest
  | f + 1, a :: rest =>
    match m.matchAt (a :: rest) with
    | some (n, rep) => rep ++ replaceAllMF m f ((a :: rest).drop n)
    | none => a :: replaceAllMF m f rest

def replaceAllM (m : Matcher α) (s : List α) : List α :=
  replaceAllMF m s.length s

omit [DecidableEq α] in
theorem processMF_nil (m : Matcher α) (B : Nat) (f : Nat) :
    processMF m B f [] = ([], []) := by
  cases f <;> rfl

omit [DecidableEq α] in
theorem replaceAllMF_nil (m : Matcher α) (f : Nat) :
    replaceAllMF m f [] = [] := by
  cases f <;> rfl

omit [DecidableEq α] in
theorem processMF_congr (m : Matcher α) (B : Nat) :
    ∀ (f : Nat) (s : List α) (g : Nat), s.length ≤ f → s.length ≤ g →
      processMF m B f s = processMF m B g s := by
  intro f
  induction f with
  | zero =>
    intro s g hf _
    have hs : s = [] := List.eq_nil_of_length_eq_zero (Nat.le_zero.mp hf)
    subst hs
    rw [processMF_nil, processMF_nil]
  | succ f ih =>
    intro s g hf hg
    cases s with
    | nil => rw [processMF_nil, processMF_nil]
    | cons a rest =>
      cases g with
      | zero => simp at hg
      | succ g' =>
        simp only [processMF]
        cases hma : m.matchAt (a :: rest) with
        | some p =>
          obtain ⟨n, rep⟩ := p
          obtain ⟨hn1, hn2⟩ := m.matchAt_bounds (a :: rest) n rep (by rw [hma])
          dsimp only
          have hd : ((a :: rest).drop n).length ≤ f := by
            simp only [List.length_drop]
            simp at hf ⊢
            omega
          have hd' : ((a :: rest).drop n).length ≤ g' := by
            simp only [List.length_drop]
            simp at hg ⊢
            omega
          rw [ih _ g' hd hd']
        | none =>
          dsimp only
          by_cases hh : m.couldMatch (a :: rest) = true ∧ (a :: rest).length ≤ B
          · rw [if_pos hh, if_pos hh]
          · rw [if_neg hh, if_neg hh]
            have hr : rest.length ≤ f := by simp at hf; omega
            have hr' : rest.length ≤ g' := by simp at hg; omega
            rw [ih rest g' hr hr']

omit [DecidableEq α] in
theorem replaceAllMF_congr (m : Matcher α) :
    ∀ (f : Nat) (s : List α) (g : Nat), s.length ≤ f → s.length ≤ g →
      replaceAllMF m f s = replaceAllMF m g s := by
  intro f
  induction f with
  | zero =>
    intro s g hf _
    have hs : s = [] := List.eq_nil_of_length_eq_zero (Nat.le_zero.mp hf)
    subst hs
    rw [replaceAllMF_nil, replaceAllMF_nil]
  | succ f ih =>
    intro s g hf hg
    cases s with
    | nil => rw [replaceAllMF_nil, replaceAllMF_nil]
    | cons a rest =>
      cases g with
      | zero => simp at hg
      | succ g' =>
        simp only [replaceAllMF]
        cases hma : m.matchAt (a :: rest) with
        | some p =>
          obtain ⟨n, rep⟩ := p
          obtain ⟨hn1, hn2⟩ := m.matchAt_bounds (a :: rest) n rep (by rw [hma])
          dsimp only
          have hd : ((a :: rest).drop n).length ≤ f := by
            simp only [List.length_drop]
            simp at hf ⊢
            omega
          have hd' : ((a :: rest).drop n).length ≤ g' := by
            simp only [List.length_drop]
            simp at hg ⊢
            omega
          rw [ih _ g' hd hd']
        | none =>
          dsimp only
          have hr : rest.length ≤ f := by simp at hf; omega
          have hr' : rest.length ≤ g' := by simp at hg; omega
          rw [ih rest g' hr hr']

omit [DecidableEq α] in
theorem processM_nil (m : Matcher α) (B : Nat) : processM m B [] = ([], []) :=
  rfl

omit [DecidableEq α] in
theorem replaceAllM_nil (m : Matcher α) : replaceAllM m [] = [] :=
  rfl

omit [DecidableEq α] in
/-- Unfolding: a confirmed front match is replaced. -/
theorem processM_match (m : Matcher α) (B : Nat) (a : α) (rest : List α)
    (n : Nat) (rep : List α) (hma : m.matchAt (a :: rest) = some (n, rep)) :
    processM m B (a :: rest) =
      (rep ++ (processM m B ((a :: rest).drop n)).1,
        (processM m B ((a :: rest).drop n)).2) := by
  obtain ⟨hn1, hn2⟩ := m.matchAt_bounds (a :: rest) n rep hma
  show processMF m B ((a :: rest).length) (a :: rest) = _
  have hlen : (a :: rest).length = rest.length + 1 := by simp
  rw [hlen]
  simp only [processMF, hma]
  have hd : ((a :: rest).drop n).length ≤ rest.length := by
    simp only [List.length_drop]
    simp
    omega
  rw [processMF_congr m B rest.length ((a :: rest).drop n)
    ((a :: rest).drop n).length hd (Nat.le_refl _)]
  rfl

omit [DecidableEq α] in
/-- Unfolding: an undecided front within the lookahead bound is held whole as
the Pending Buffer. -/
theorem processM_hold (m : Matcher α) (B : Nat) (a : α) (rest : List α)
    (hma : m.matchAt (a :: rest) = none)
    (hcm : m.couldMatch (a :: rest) = true)
    (hlen : (a :: rest).length ≤ B) :
    processM m B (a :: rest) = ([], a :: rest) := by
  show processMF m B ((a :: rest).length) (a :: rest) = _
  have hl : (a :: rest).length = rest.length + 1 := by simp
  rw [hl]
  simp only [processMF, hma]
  rw [if_pos ⟨hcm, hlen⟩]

omit [DecidableEq α] in
/-- Unfolding: a ruled-out front byte, or one given up on because the bound
is exceeded, is emitted unmodified and scanning resumes at the next byte. -/
theorem processM_emit (m : Matcher α) (B : Nat) (a : α) (rest : List α)
    (hma : m.matchAt (a :: rest) = none)
    (hng : ¬(m.couldMatch (a :: rest) = true ∧ (a :: rest).length ≤ B)) :
    processM m B (a :: rest) =
      (a :: (processM m B rest).1, (processM m B rest).2) := by
  show processMF m B ((a :: rest).length) (a :: rest) = _
  have hl : (a :: rest).length = rest.length + 1 := by simp
  rw [hl]
  simp only [processMF, hma]
  rw [if_neg hng]
  rfl

omit [DecidableEq α] in
theorem replaceAllM_match (m : Matcher α) (a : α) (rest : List α)
    (n : Nat) (rep : List α) (hma : m.matchAt (a :: rest) = some (n, rep)) :
    replaceAllM m (a :: rest) = rep ++ replaceAllM m ((a :: rest).drop n) := by
  obtain ⟨hn1, hn2⟩ := m.matchAt_bounds (a :: rest) n rep hma
  show replaceAllMF m ((a :: rest).length) (a :: rest) = _
  have hlen : (a :: rest).length = rest.length + 1 := by simp
  rw [hlen]
  simp only [replaceAllMF, hma]
  have hd : ((a :: rest).drop n).length ≤ rest.length := by
    simp only [List.length_drop]
    simp
    omega
  rw [replaceAllMF_congr m rest.length ((a :: rest).drop n)
    ((a :: rest).drop n).length hd (Nat.le_refl _)]
  rfl

omit [DecidableEq α] in
theorem replaceAllM_emit (m : Matcher α) (a : α) (rest : List α)
    (hma : m.matchAt (a :: rest) = none) :
    replaceAllM m (a :: rest) = a :: replaceAllM m rest := by
  show replaceAllMF m ((a :: rest).length) (a :: rest) = _
  have hlen : (a :: rest).length = rest.length + 1 := by simp
  rw [hlen]
  simp only [replaceAllMF, hma]
  rfl

/-- The claim's proviso, per rule: every confirmed match of the rule at any
position of its input stream fits within the lookahead bound. -/
def BoundedAt (m : Matcher α) (B : Nat) (x : List α) : Prop :=
  ∀ i n rep, m.matchAt (x.drop i) = some (n, rep) → n ≤ B

omit [DecidableEq α] in
theorem BoundedAt_drop (m : Matcher α) (B : Nat) (x : List α)
    (h : BoundedAt m B x) (j : Nat) : BoundedAt m B (x.drop j) := by
  intro i n rep hma
  rw [List.drop_drop] at hma
  exact h (j + i) n rep hma

omit [DecidableEq α] in
theorem BoundedAt_of_suffix (m : Matcher α) (B : Nat) (x y : List α)
    (h : BoundedAt m B x) (hs : y <:+ x) : BoundedAt m B y := by
  rw [List.suffix_iff_eq_drop] at hs
  rw [hs]
  exact BoundedAt_drop m B x h _

/-- A decidable sufficient check for BoundedAt, for concrete inputs. -/
def boundedCheck (m : Matcher α) (B : Nat) (x : List α) : Bool :=
  (List.range (x.length + 1)).all fun i =>
    match m.matchAt (x.drop i) with
    | some (n, _) => decide (n ≤ B)
    | none => true

omit [DecidableEq α] in
theorem BoundedAt_of_check (m : Matcher α) (B : Nat) (x : List α)
    (h : boundedCheck m B x = true) : BoundedAt m B x := by
  intro i n rep hma
  have hall := List.all_eq_true.mp h
  by_cases hi : i ≤ x.length
  · have := hall i (by simp [List.mem_range]; omega)
    rw [hma] at this
    simpa using this
  · have hdrop : x.drop i = x.drop x.length := by
      rw [List.drop_of_length_le (by omega), List.drop_length]
    rw [hdrop] at hma
    have := hall x.length (by simp [List.mem_range])
    rw [hma] at this
    simpa using this

omit [DecidableEq α] in
/-- The Pending Buffer left by a stage step is a suffix of its input and is
either empty or a held window: undecided, still possibly matching, and
within the lookahead bound. -/
theorem processM_pend_spec (m : Matcher α) (B : Nat) :
    ∀ (k : Nat) (s : List α), s.length ≤ k →
      (processM m B s).2 <:+ s ∧
        ((processM m B s).2 = [] ∨
          (m.matchAt (processM m B s).2 = none ∧
            m.couldMatch (processM m B s).2 = true ∧
            (processM m B s).2.length ≤ B)) := by
  intro k
  induction k with
  | zero =>
    intro s hs
    have : s = [] := List.eq_nil_of_length_eq_zero (Nat.le_zero.mp hs)
    subst this
    exact ⟨List.suffix_rfl, Or.inl rfl⟩
  | succ k ih =>
    intro s hs
    cases s with
    | nil => exact ⟨List.suffix_rfl, Or.inl rfl⟩
    | cons a rest =>
      cases hma : m.matchAt (a :: rest) with
      | some p =>
        obtain ⟨n, rep⟩ := p
        obtain ⟨hn1, hn2⟩ := m.matchAt_bounds (a :: rest) n rep hma
        rw [processM_match m B a rest n rep hma]
        have hd : ((a :: rest).drop n).length ≤ k := by
          simp only [List.length_drop]
          simp at hs ⊢
          omega
        obtain ⟨hsuf, hrest⟩ := ih _ hd
        exact ⟨hsuf.trans (List.drop_suffix n (a :: rest)), hrest⟩
      | none =>
        by_cases hh : m.couldMatch (a :: rest) = true ∧ (a :: rest).length ≤ B
        · rw [processM_hold m B a rest hma hh.1 hh.2]
          exact ⟨List.suffix_rfl, Or.inr ⟨hma, hh.1, hh.2⟩⟩
        · rw [processM_emit m B a rest hma hh]
          have hr : rest.length ≤ k := by simp at hs; omega
          obtain ⟨hsuf, hrest⟩ := ih rest hr
          exact ⟨hsuf.trans (List.suffix_cons a rest), hrest⟩

omit [DecidableEq α] in
/-- A retained Pending Buffer is stuck: feeding it again emits nothing and
retains it unchanged. -/
theorem processM_pend_stuck (m : Matcher α) (B : Nat) (s : List α) :
    processM m B ((processM m B s).2) = ([], (processM m B s).2) := by
  obtain ⟨_, hspec⟩ := processM_pend_spec m B s.length s (Nat.le_refl _)
  rcases hspec with h | ⟨hma, hcm, hlen⟩
  · rw [h]
    rfl
  · cases hp : (processM m B s).2 with
    | nil => rfl
    | cons a rest =>
      rw [hp] at hma hcm hlen
      exact processM_hold m B a rest hma hcm hlen

omit [DecidableEq α] in
/-- The central split: on input whose matches all fit the lookahead bound,
the buffered transform of `s ++ t` is the stage's emitted output on `s`
followed by the buffered transform of the retained pending bytes together
with `t`. Give-up positions are exactly where the hypothesis is needed: a
window held past the bound can only complete to a match longer than the
bound, which the hypothesis excludes. -/
theorem replaceAllM_processM_split (m : Matcher α) (B : Nat) :
    ∀ (k : Nat) (s t : List α), s.length ≤ k → BoundedAt m B (s ++ t) →
      replaceAllM m (s ++ t) =
        (processM m B s).1 ++ replaceAllM m ((processM m B s).2 ++ t) := by
  intro k
  induction k with
  | zero =>
    intro s t hs _
    have : s = [] := List.eq_nil_of_length_eq_zero (Nat.le_zero.mp hs)
    subst this
    simp [processM_nil]
  | succ k ih =>
    intro s t hs hbd
    cases s with
    | nil => simp [processM_nil]
    | cons a rest =>
      cases hma : m.matchAt (a :: rest) with
      | some p =>
        obtain ⟨n, rep⟩ := p
        obtain ⟨hn1, hn2⟩ := m.matchAt_bounds (a :: rest) n rep hma
        have hma' : m.matchAt (a :: (rest ++ t)) = some (n, rep) := by
          have := m.matchAt_extend (a :: rest) t n rep hma
          rwa [List.cons_append] at this
        have hstep : replaceAllM m ((a :: rest) ++ t) =
            rep ++ replaceAllM m ((a :: (rest ++ t)).drop n) := by
          rw [List.cons_append]
          exact replaceAllM_match m a (rest ++ t) n rep hma'
        have hdropeq : (a :: (rest ++ t)).drop n =
            (a :: rest).drop n ++ t := by
          rw [← List.cons_append]
          exact List.drop_append_of_le_length hn2
        rw [hstep, hdropeq]
        have hd : ((a :: rest).drop n).length ≤ k := by
          simp only [List.length_drop]
          simp at hs ⊢
          omega
        have hbd' : BoundedAt m B ((a :: rest).drop n ++ t) := by
          rw [← List.drop_append_of_le_length hn2]
          exact BoundedAt_drop m B _ hbd n
        rw [ih _ t hd hbd']
        rw [processM_match m B a rest n rep hma]
        simp
      | none =>
        by_cases hh : m.couldMatch (a :: rest) = true ∧ (a :: rest).length ≤ B
        · rw [processM_hold m B a rest hma hh.1 hh.2]
          simp
        · have hma' : m.matchAt ((a :: rest) ++ t) = none := by
            by_cases hcm : m.couldMatch (a :: rest) = true
            · cases hma2 : m.matchAt ((a :: rest) ++ t) with
              | none => rfl
              | some p =>
                obtain ⟨n, rep⟩ := p
                exfalso
                have hnB : n ≤ B := by
                  have := hbd 0 n rep
                  simp only [List.drop_zero] at this
                  exact this hma2
                have hlen : ¬((a :: rest).length ≤ B) := fun hl => hh ⟨hcm, hl⟩
                have hns : n ≤ (a :: rest).length := by omega
                have := m.matchAt_confirm (a :: rest) t n rep hma2 hns
                rw [this] at hma
                exact absurd hma (by simp)
            · exact m.ruledOut_extend (a :: rest) t
                (Bool.not_eq_true _ ▸ (by simpa using hcm))
          have hstep : replaceAllM m ((a :: rest) ++ t) =
              a :: replaceAllM m (rest ++ t) := by
            rw [List.cons_append] at hma' ⊢
            exact replaceAllM_emit m a (rest ++ t) hma'
          rw [hstep]
          have hr : rest.length ≤ k := by simp at hs; omega
          have hbd' : BoundedAt m B (rest ++ t) := by
            have := BoundedAt_drop m B _ hbd 1
            simpa using this
          rw [ih rest t hr hbd']
          rw [processM_emit m B a rest hma hh]
          simp

/-- Modelled from the spec: one stage of the streaming pipeline in its
general form — the rule's matching capability, its lookahead bound, and the
stage's Pending Buffer (spec 3, 4.2). -/
structure MStage (α : Type) where
  m : Matcher α
  B : Nat
  pend : List α

/-- Writing one chunk through the pipeline: stage i's emitted bytes feed
stage i+1 (spec 4.2, 9). -/
def mchainWrite : List (MStage α) → List α → List α × List (MStage α)
  | [], d => (d, [])
  | st :: sts, d =>
    let r := processM st.m st.B (st.pend ++ d)
    let rest := mchainWrite sts r.1
    (rest.1, ⟨st.m, st.B, r.2⟩ :: rest.2)

/-- Closing the pipeline: the stream has ended, so each stage resolves its
Pending Buffer together with the carry arriving from the previous stage with
the whole remainder present — confirmed matches are replaced, anything still
unresolved passes through unmodified — and feeds the result to the next
stage (spec 4.2, close). -/
def mchainClose : List (MStage α) → List α → List α
  | [], carry => carry
  | st :: sts, carry => mchainClose sts (replaceAllM st.m (st.pend ++ carry))

def mchainWrites : List (MStage α) → List (List α) → List α × List (MStage α)
  | sts, [] => ([], sts)
  | sts, c :: cs =>
    let r := mchainWrite sts c
    let rest := mchainWrites r.2 cs
    (r.1 ++ rest.1, rest.2)

def minitStages (rules : List (Matcher α × Nat)) : List (MStage α) :=
  rules.map fun mb => ⟨mb.1, mb.2, []⟩

/-- The streaming engine run: write all chunks, then close, concatenating
everything emitted to the sink. -/
def mchainStreamRun (rules : List (Matcher α × Nat))
    (chunks : List (List α)) : List α :=
  let r := mchainWrites (minitStages rules) chunks
  r.1 ++ mchainClose r.2 []

/-- The one-shot buffered transform of the whole chain: rule i's complete
output is rule i+1's input (spec 3, 4.1). -/
def mchainBuffered (rules : List (Matcher α × Nat)) (s : List α) : List α :=
  rules.foldl (fun acc mb => replaceAllM mb.1 acc) s

/-- All stages' Pending Buffers are stuck. -/
def MStuck (sts : List (MStage α)) : Prop :=
  ∀ st ∈ sts, processM st.m st.B st.pend = ([], st.pend)

/-- The claim's proviso for a running pipeline: each stage's matches on its
own total remaining input fit its lookahead bound, where a stage's input is
the previous stage's complete output. -/
def StagesBounded : List (MStage α) → List α → Prop
  | [], _ => True
  | st :: sts, x =>
    BoundedAt st.m st.B (st.pend ++ x) ∧
      StagesBounded sts (replaceAllM st.m (st.pend ++ x))

/-- The claim's proviso on a configured chain: each rule's matches on the
input it actually sees fit the lookahead bound. -/
def ChainBounded : List (Matcher α × Nat) → List α → Prop
  | [], _ => True
  | mb :: rs, x => BoundedAt mb.1 mb.2 x ∧ ChainBounded rs (replaceAllM mb.1 x)

omit [DecidableEq α] in
theorem mStuck_minit (rules : List (Matcher α × Nat)) :
    MStuck (minitStages rules) := by
  intro st hst
  simp only [minitStages, List.mem_map] at hst
  obtain ⟨mb, _, rfl⟩ := hst
  rfl

omit [DecidableEq α] in
theorem mchainWrite_mstuck (sts : List (MStage α)) (d : List α)
    (h : MStuck sts) : MStuck (mchainWrite sts d).2 := by
  induction sts generalizing d with
  | nil => intro st hst; simp [mchainWrite] at hst
  | cons st sts ih =>
    intro st' hst'
    simp only [mchainWrite, List.mem_cons] at hst'
    rcases hst' with h' | h'
    · subst h'
      exact processM_pend_stuck st.m st.B (st.pend ++ d)
    · exact ih _ (fun s hs => h s (List.mem_cons_of_mem st hs)) st' h'

omit [DecidableEq α] in
theorem stagesBounded_minit (rules : List (Matcher α × Nat)) :
    ∀ x : List α, ChainBounded rules x → StagesBounded (minitStages rules) x := by
  induction rules with
  | nil => intro x _; trivial
  | cons mb rs ih =>
    intro x h
    refine ⟨by simpa using h.1, ?_⟩
    show StagesBounded (minitStages rs) (replaceAllM mb.1 ([] ++ x))
    rw [List.nil_append]
    exact ih _ h.2

omit [DecidableEq α] in
/-- Writing a chunk and then closing with a carry equals closing with the
chunk prepended to the carry; the proviso is carried through to the updated
stages. -/
theorem mchainWrite_close (sts : List (MStage α)) :
    ∀ (x y : List α), MStuck sts → StagesBounded sts (x ++ y) →
      ((mchainWrite sts x).1 ++ mchainClose (mchainWrite sts x).2 y =
          mchainClose sts (x ++ y))
        ∧ StagesBounded (mchainWrite sts x).2 y := by
  induction sts with
  | nil => intro x y _ _; exact ⟨by simp [mchainWrite, mchainClose], trivial⟩
  | cons st sts ih =>
    intro x y hstuck hbd
    have htail : MStuck sts := fun s hs => hstuck s (List.mem_cons_of_mem st hs)
    obtain ⟨hbd1, hbd2⟩ := hbd
    -- the head stage's split along the write/close boundary
    have hkey : replaceAllM st.m (st.pend ++ (x ++ y)) =
        (processM st.m st.B (st.pend ++ x)).1 ++
          replaceAllM st.m ((processM st.m st.B (st.pend ++ x)).2 ++ y) := by
      have h1 : BoundedAt st.m st.B ((st.pend ++ x) ++ y) := by
        rw [List.append_assoc]
        exact hbd1
      have := replaceAllM_processM_split st.m st.B (st.pend ++ x).length
        (st.pend ++ x) y (Nat.le_refl _) h1
      rw [List.append_assoc] at this
      exact this
    have hpend2 : BoundedAt st.m st.B
        ((processM st.m st.B (st.pend ++ x)).2 ++ y) := by
      have hsuf : (processM st.m st.B (st.pend ++ x)).2 <:+ st.pend ++ x :=
        (processM_pend_spec st.m st.B (st.pend ++ x).length (st.pend ++ x)
          (Nat.le_refl _)).1
      obtain ⟨d, hd⟩ := hsuf
      refine BoundedAt_of_suffix st.m st.B (st.pend ++ (x ++ y)) _ hbd1 ?_
      exact ⟨d, by rw [← List.append_assoc, hd, List.append_assoc]⟩
    have hbd2' : StagesBounded sts
        ((processM st.m st.B (st.pend ++ x)).1 ++
          replaceAllM st.m ((processM st.m st.B (st.pend ++ x)).2 ++ y)) := by
      rw [← hkey]
      exact hbd2
    obtain ⟨ihEq, ihBd⟩ := ih (processM st.m st.B (st.pend ++ x)).1
      (replaceAllM st.m ((processM st.m st.B (st.pend ++ x)).2 ++ y))
      htail hbd2'
    constructor
    · show (mchainWrite sts (processM st.m st.B (st.pend ++ x)).1).1 ++
        mchainClose (mchainWrite sts (processM st.m st.B (st.pend ++ x)).1).2
          (replaceAllM st.m ((processM st.m st.B (st.pend ++ x)).2 ++ y)) =
        mchainClose sts (replaceAllM st.m (st.pend ++ (x ++ y)))
      rw [hkey]
      exact ihEq
    · exact ⟨hpend2, ihBd⟩

omit [DecidableEq α] in
/-- Writing a chunk sequence and then closing equals closing on the joined
chunks. -/
theorem mchainWrites_close (cs : List (List α)) :
    ∀ (sts : List (MStage α)) (y : List α), MStuck sts →
      StagesBounded sts (cs.flatten ++ y) →
      (mchainWrites sts cs).1 ++ mchainClose (mchainWrites sts cs).2 y =
        mchainClose sts (cs.flatten ++ y) := by
  induction cs with
  | nil => intro sts y _ _; simp [mchainWrites]
  | cons c cs ih =>
    intro sts y hstuck hbd
    have hbd' : StagesBounded sts (c ++ (cs.flatten ++ y)) := by
      have : (c :: cs).flatten ++ y = c ++ (cs.flatten ++ y) := by
        simp
      rwa [this] at hbd
    obtain ⟨hEq, hBd⟩ := mchainWrite_close sts c (cs.flatten ++ y) hstuck hbd'
    simp only [mchainWrites, List.flatten_cons]
    rw [List.append_assoc]
    rw [ih _ y (mchainWrite_mstuck sts c hstuck) hBd]
    rw [hEq]
    rw [List.append_assoc]

omit [DecidableEq α] in
/-- Closing fresh stages on a buffer is exactly the buffered chain
transform. -/
theorem mchainClose_minit (rules : List (Matcher α × Nat)) :
    ∀ s : List α, mchainClose (minitStages rules) s = mchainBuffered rules s := by
  induction rules with
  | nil => intro s; rfl
  | cons mb rules ih =>
    intro s
    simp only [minitStages, List.map_cons, mchainClose, List.nil_append]
    show mchainClose (minitStages rules) (replaceAllM mb.1 s) = _
    rw [ih]
    rfl

/-- The literal-pattern rule's matching capability (spec 4.2,
literal-pattern rule): the front matches exactly when the pattern is a
prefix of the bytes seen, consuming the pattern's length; a front could
still match while it is a prefix of the pattern. -/
def litMatcher (pat rep : List α) : Matcher α where
  matchAt s := if pat ≠ [] ∧ pat <+: s then some (pat.length, rep) else none
  couldMatch s := decide (pat ≠ [] ∧ (pat <+: s ∨ s <+: pat))
  matchAt_bounds := by
    intro s n rep' h
    dsimp only at h
    by_cases hc : pat ≠ [] ∧ pat <+: s
    · rw [if_pos hc] at h
      have hn : pat.length = n := (Prod.mk.inj (Option.some.inj h)).1
      subst hn
      exact ⟨Nat.succ_le_of_lt (List.length_pos.mpr hc.1), hc.2.length_le⟩
    · rw [if_neg hc] at h
      exact absurd h (by simp)
  matchAt_extend := by
    intro s t n rep' h
    dsimp only at h ⊢
    by_cases hc : pat ≠ [] ∧ pat <+: s
    · rw [if_pos hc] at h
      rw [if_pos ⟨hc.1, hc.2.trans (List.prefix_append s t)⟩]
      exact h
    · rw [if_neg hc] at h
      exact absurd h (by simp)
  matchAt_confirm := by
    intro s t n rep' h hns
    dsimp only at h ⊢
    by_cases hc : pat ≠ [] ∧ pat <+: s ++ t
    · rw [if_pos hc] at h
      have hn : n = pat.length := by
        have := Option.some.inj h
        exact (Prod.mk.inj this).1.symm
      have hps : pat <+: s :=
        List.prefix_of_prefix_length_le hc.2 (List.prefix_append s t)
          (by omega)
      rw [if_pos ⟨hc.1, hps⟩]
      exact h
    · rw [if_neg hc] at h
      exact absurd h (by simp)
  ruledOut_extend := by
    intro s t hcm
    dsimp only at hcm ⊢
    have hnp : ¬(pat ≠ [] ∧ (pat <+: s ∨ s <+: pat)) := by
      simpa using hcm
    rw [if_neg ?_]
    rintro ⟨hne, hp⟩
    rcases Nat.le_total pat.length s.length with hle | hle
    · exact hnp ⟨hne, Or.inl
        (List.prefix_of_prefix_length_le hp (List.prefix_append s t) hle)⟩
    · exact hnp ⟨hne, Or.inr
        (List.prefix_of_prefix_length_le (List.prefix_append s t) hp hle)⟩
  couldMatch_extend := by
    intro s t hcm
    dsimp only at hcm ⊢
    have hnp : ¬(pat ≠ [] ∧ (pat <+: s ∨ s <+: pat)) := by
      simpa using hcm
    simp only [decide_eq_false_iff_not]
    rintro ⟨hne, hp | hp⟩
    · rcases Nat.le_total pat.length s.length with hle | hle
      · exact hnp ⟨hne, Or.inl
          (List.prefix_of_prefix_length_le hp (List.prefix_append s t) hle)⟩
      · exact hnp ⟨hne, Or.inr
          (List.prefix_of_prefix_length_le (List.prefix_append s t) hp hle)⟩
    · exact hnp ⟨hne, Or.inr ((List.prefix_append s t).trans hp)⟩

/-- A literal rule's matches always fit a lookahead of the pattern's length,
so the bounded-lookahead proviso is automatically satisfied by literal
stages. -/
theorem litMatcher_bounded (pat rep x : List α) :
    BoundedAt (litMatcher pat rep) pat.length x := by
  intro i n rep' h
  simp only [litMatcher] at h
  by_cases hc : pat ≠ [] ∧ pat <+: (x.drop i)
  · rw [if_pos hc] at h
    have hn : pat.length = n := (Prod.mk.inj (Option.some.inj h)).1
    omega
  · rw [if_neg hc] at h
    exact absurd h (by simp)

/-- A configured rule as the chain sees it (spec 3, 9: "Pattern =
Literal(text) | Regex(compiled)"): a literal pattern with its replacement,
or a compiled regex given by its matching capability and lookahead bound. -/
inductive RuleSpec (α : Type) where
  | lit (pat rep : List α)
  | regex (m : Matcher α) (B : Nat)

/-- Each configured rule's stage: a literal rule matches by prefix and never
needs lookahead beyond its own pattern; a regex rule brings its matcher and
bounded lookahead window. -/
def ruleMatcher : RuleSpec α → Matcher α × Nat
  | RuleSpec.lit pat rep => (litMatcher pat rep, pat.length)
  | RuleSpec.regex mt B => (mt, B)

/-- C1: for every configured chain — literal rules and regex rules, the
latter given by their matching capability and bounded lookahead — whose
rules' matches never exceed the bounded lookahead on the data each rule
actually sees, and every input split into an arbitrary sequence of chunks,
writing the chunks through the streaming engine and concatenating
everything it emits, including the flush on close, yields exactly the same
bytes as the one-shot buffered transform applied to the whole input
delivered as a single buffer. -/
theorem C1_streaming_buffered_equivalence (rules : List (RuleSpec Char))
    (chunks : List (List Char))
    (h : ChainBounded (rules.map ruleMatcher) chunks.flatten) :
    mchainStreamRun (rules.map ruleMatcher) chunks =
      mchainBuffered (rules.map ruleMatcher) chunks.flatten := by
  show (mchainWrites (minitStages (rules.map ruleMatcher)) chunks).1 ++
      mchainClose (mchainWrites (minitStages (rules.map ruleMatcher)) chunks).2 [] = _
  rw [mchainWrites_close chunks (minitStages (rules.map ruleMatcher)) []
    (mStuck_minit _)
    (by rw [List.append_nil]; exact stagesBounded_minit _ _ h)]
  rw [List.append_nil]
  exact mchainClose_minit _ chunks.flatten

/-- Length of the leading run of 'a' bytes. -/
def aRun : List Char → Nat
  | [] => 0
  | c :: rest => if c = 'a' then aRun rest + 1 else 0

theorem aRun_append (t : List Char) :
    ∀ s : List Char, aRun (s ++ t) =
      if aRun s = s.length then s.length + aRun t else aRun s := by
  intro s
  induction s with
  | nil => simp [aRun]
  | cons c rest ih =>
    show (if c = 'a' then aRun (rest ++ t) + 1 else 0) =
      if (if c = 'a' then aRun rest + 1 else 0) = rest.length + 1 then
        rest.length + 1 + aRun t
      else (if c = 'a' then aRun rest + 1 else 0)
    by_cases hc : c = 'a'
    · simp only [if_pos hc]
      rw [ih]
      by_cases he : aRun rest = rest.length
      · rw [if_pos he, if_pos (by omega)]
        omega
      · rw [if_neg he, if_neg (by omega)]
    · simp only [if_neg hc]
      rw [if_neg (by omega)]

theorem aRun_le_length : ∀ s : List Char, aRun s ≤ s.length := by
  intro s
  induction s with
  | nil => simp [aRun]
  | cons c rest ih =>
    by_cases hc : c = 'a'
    · simp only [aRun, if_pos hc, List.length_cons]
      omega
    · simp only [aRun, if_neg hc, List.length_cons]
      omega

theorem aRun_lt_of_not_all :
    ∀ s : List Char, (s.all fun c => c == 'a') = false → aRun s < s.length := by
  intro s
  induction s with
  | nil => intro h; simp at h
  | cons c rest ih =>
    intro h
    by_cases hc : c = 'a'
    · simp only [List.all_cons, hc] at h
      simp only [aRun, if_pos hc, List.length_cons]
      have := ih (by simpa using h)
      omega
    · simp only [aRun, if_neg hc, List.length_cons]
      omega

/-- A concrete regex-like matcher: one or more 'a' bytes followed by 'b',
replaced by "X" — matches have unbounded length, so the lookahead bound is
genuinely at play. -/
def aPlusB : Matcher Char where
  matchAt s :=
    if 1 ≤ aRun s ∧ s[aRun s]? = some 'b' then some (aRun s + 1, ['X'])
    else none
  couldMatch s :=
    (s.all fun c => c == 'a') ||
      decide (1 ≤ aRun s ∧ s[aRun s]? = some 'b')
  matchAt_bounds := by
    intro s n rep h
    dsimp only at h
    by_cases hc : 1 ≤ aRun s ∧ s[aRun s]? = some 'b'
    · rw [if_pos hc] at h
      have hn : aRun s + 1 = n := (Prod.mk.inj (Option.some.inj h)).1
      have hlt : aRun s < s.length := by
        have := hc.2
        have := List.getElem?_eq_some.mp this
        exact this.1
      omega
    · rw [if_neg hc] at h
      exact absurd h (by simp)
  matchAt_extend := by
    intro s t n rep h
    dsimp only at h ⊢
    by_cases hc : 1 ≤ aRun s ∧ s[aRun s]? = some 'b'
    · rw [if_pos hc] at h
      have hlt : aRun s < s.length := (List.getElem?_eq_some.mp hc.2).1
      have hru : aRun (s ++ t) = aRun s := by
        rw [aRun_append]
        rw [if_neg (by omega)]
      have hg : (s ++ t)[aRun (s ++ t)]? = some 'b' := by
        rw [hru, List.getElem?_append_left hlt]
        exact hc.2
      rw [if_pos ⟨by omega, hg⟩, hru]
      exact h
    · rw [if_neg hc] at h
      exact absurd h (by simp)
  matchAt_confirm := by
    intro s t n rep h hns
    dsimp only at h ⊢
    by_cases hc : 1 ≤ aRun (s ++ t) ∧ (s ++ t)[aRun (s ++ t)]? = some 'b'
    · rw [if_pos hc] at h
      have hn : aRun (s ++ t) + 1 = n := (Prod.mk.inj (Option.some.inj h)).1
      have hlt : aRun (s ++ t) < s.length := by omega
      have hru : aRun s = aRun (s ++ t) := by
        rw [aRun_append] at hlt ⊢
        by_cases he : aRun s = s.length
        · rw [if_pos he] at hlt
          omega
        · rw [if_neg he]
      have hg : s[aRun s]? = some 'b' := by
        rw [hru, ← List.getElem?_append_left (by omega)]
        exact hc.2
      rw [if_pos ⟨by omega, hg⟩, hru]
      exact h
    · rw [if_neg hc] at h
      exact absurd h (by simp)
  ruledOut_extend := by
    intro s t hcm
    dsimp only at hcm ⊢
    have hall : (s.all fun c => c == 'a') = false := by
      cases hx : s.all fun c => c == 'a'
      · rfl
      · rw [hx] at hcm; simp at hcm
    have hnc : ¬(1 ≤ aRun s ∧ s[aRun s]? = some 'b') := by
      cases hx : decide (1 ≤ aRun s ∧ s[aRun s]? = some 'b')
      · simpa using hx
      · rw [hx] at hcm; simp at hcm
    have hlt : aRun s < s.length := aRun_lt_of_not_all s hall
    have hru : aRun (s ++ t) = aRun s := by
      rw [aRun_append, if_neg (by omega)]
    rw [if_neg ?_]
    rintro ⟨h1, h2⟩
    rw [hru] at h1 h2
    rw [List.getElem?_append_left hlt] at h2
    exact hnc ⟨h1, h2⟩
  couldMatch_extend := by
    intro s t hcm
    dsimp only at hcm ⊢
    have hall : (s.all fun c => c == 'a') = false := by
      cases hx : s.all fun c => c == 'a'
      · rfl
      · rw [hx] at hcm; simp at hcm
    have hnc : ¬(1 ≤ aRun s ∧ s[aRun s]? = some 'b') := by
      cases hx : decide (1 ≤ aRun s ∧ s[aRun s]? = some 'b')
      · simpa using hx
      · rw [hx] at hcm; simp at hcm
    have hlt : aRun s < s.length := aRun_lt_of_not_all s hall
    have hru : aRun (s ++ t) = aRun s := by
      rw [aRun_append, if_neg (by omega)]
    have hall' : ((s ++ t).all fun c => c == 'a') = false := by
      rw [List.all_append, hall]
      rfl
    rw [hall']
    simp only [Bool.false_or, decide_eq_false_iff_not]
    rintro ⟨h1, h2⟩
    rw [hru] at h1 h2
    rw [List.getElem?_append_left hlt] at h2
    exact hnc ⟨h1, h2⟩

/-- Witness for C1 at a concrete mixed chain — a literal rule ab to Y
followed by the regex rule a+b to X with lookahead 4 — on input "caabb"
split into three chunks, discharging the bounded-lookahead proviso. -/
theorem C1_streaming_buffered_equivalence_witness :
    mchainStreamRun
        ([RuleSpec.lit "ab".data "Y".data,
          RuleSpec.regex aPlusB 4].map ruleMatcher)
        ["ca".data, "ab".data, "b".data] =
      mchainBuffered
        ([RuleSpec.lit "ab".data "Y".data,
          RuleSpec.regex aPlusB 4].map ruleMatcher)
        (["ca".data, "ab".data, "b".data].flatten) :=
  C1_streaming_buffered_equivalence
    [RuleSpec.lit "ab".data "Y".data, RuleSpec.regex aPlusB 4]
    ["ca".data, "ab".data, "b".data]
    ⟨litMatcher_bounded "ab".data "Y".data _,
      BoundedAt_of_check _ _ _ (by decide), trivial⟩

/-- The documented lookahead-bound limitation, exercised: with bound 2, the
a+b match of length 4 straddling the chunk boundary is abandoned by the
streaming engine (its first byte passes through unreplaced), while the
buffered transform replaces it — the divergence C1's proviso excludes. -/
example :
    mchainStreamRun [(aPlusB, 2)] ["aaa".data, "b".data] = "aX".data
    ∧ mchainBuffered [(aPlusB, 2)] "aaab".data = "X".data := by
  decide

end ReplaceResponse
